import Mathlib

/-!
Shallow embedding of the tiled foreground-detection scan from
`updates/1-LoadingImages.ipynb` (the Dask tissue-thresholding cell block):
the `threshold` variance classifier, the `process_patch` worker loop, the
`compile_results` aggregator, the coordinate-grid / chunking list
comprehensions, and the mask-building loop.

Pixel values are modelled as rationals (numpy computes the variance in
floating point; the pixel data itself is integral, and every comparison in
the code is an exact order comparison, so `ℚ` is a faithful carrier).
Machine integers in the Python code are arbitrary-precision, so `Nat`
models them directly; Python `//` on non-negative ints is `Nat` division.
-/

namespace BioImaging

/-- A tile coordinate `(x, y)` in level-0 pixel space. -/
abbrev Coord := Nat × Nat

/-- Python `range(0, stop, step)` for `step > 0`, in closed form: the values
`0, step, 2*step, …` that are `< stop`.  (`range` with step `0` raises
`ValueError` in Python; the one call site with a possibly-zero step is
guarded in `chunking` below.) -/
def pyRange (stop step : Nat) : List Nat :=
  (List.range ((stop + step - 1) / step)).map (fun t => t * step)

/-- The notebook's `patch_size = 164`. -/
def patch_size : Nat := 164

/-- Mean of a list of pixel values, `l.sum / len(l)` (division by zero gives
`0` in `ℚ`; the notebook only ever evaluates this on non-empty tiles). -/
def mean (l : List ℚ) : ℚ := l.sum / (l.length : ℚ)

/-- Population variance of the flattened pixel list, numpy's
`arr.flatten().var()`: mean of squared deviations from the mean. -/
def var (l : List ℚ) : ℚ :=
  ((l.map (fun x => (x - mean l) ^ 2)).sum) / (l.length : ℚ)

/-- The Python default argument `threshold_value=80` of `threshold`. -/
def threshold_default : ℚ := 80

/-- The classifier `def threshold(arr, threshold_value=80)`: returns `True` when
`arr.flatten().var() > threshold_value`, else `False`. -/
def threshold (arr : List ℚ) (threshold_value : ℚ) : Bool :=
  if var arr > threshold_value then true else false

/-- A `read_region` request: `location` in level-0 coordinates, `size` in
target-level coordinates, and the pyramid `level`. -/
structure ReadReq where
  locx : Nat
  locy : Nat
  sizew : Nat
  sizeh : Nat
  level : Nat
deriving DecidableEq, Repr

/-- The worker `process_patch(start_loc_list)` from the notebook, with the image read
abstracted as a function `img` from read requests to pixel buffers and the
`reduction` (level-1 downsample factor) a parameter.  Besides the result
list `res` it returns the trace of `read_region` requests issued, in order,
so that "one read per coordinate" is a statement about the model.
Each iteration reads `size=[patch_size//reduction, patch_size//reduction]`
at `level=1` with `location=start_loc`, and appends `(start_loc[0],
start_loc[1])` to `res` when `threshold(region)` (default threshold) holds. -/
def process_patch (img : ReadReq → List ℚ) (reduction : Nat)
    (start_loc_list : List Coord) : List ReadReq × List Coord :=
  start_loc_list.foldl
    (fun acc start_loc =>
      let req : ReadReq :=
        ⟨start_loc.1, start_loc.2, patch_size / reduction, patch_size / reduction, 1⟩
      let region := img req
      (acc.1 ++ [req],
       if threshold region threshold_default then acc.2 ++ [start_loc] else acc.2))
    ([], [])

/-- The aggregator `compile_results(futures)`: iterates over worker results in completion
order (here: the order of the list), and for each non-empty result list
appends all of its patches to the accumulator. -/
def compile_results (futures : List (List Coord)) : List Coord :=
  futures.foldl
    (fun patches res1 => if res1 = [] then patches else patches ++ res1) []

/-- The grid `start_loc_data = [(sx, sy) for sy in range(0, h, patch_size) for sx in
range(0, w, patch_size)]` with `w, h` the level-0 dimensions. -/
def start_loc_data (w h : Nat) : List Coord :=
  (pyRange h patch_size).flatMap
    (fun sy => (pyRange w patch_size).map (fun sx => (sx, sy)))

/-- The chunking step: `chunk_size = len(data) // num_chunks;
start_loc_list = [data[i:i+chunk_size] for i in range(0, len(data), chunk_size)]`.
When `chunk_size = 0`, Python's `range` raises `ValueError` (and with
`num_chunks = 0` the `//` raises `ZeroDivisionError`), modelled as `none`. -/
def chunking {α : Type} (data : List α) (num_chunks : Nat) :
    Option (List (List α)) :=
  let chunk_size := data.length / num_chunks
  if chunk_size = 0 then none
  else some ((pyRange data.length chunk_size).map
    (fun i => ((data.drop i).take chunk_size)))

/-- The per-chunk worker results, one list per dispatched chunk, in dispatch
order (`client.map(process_patch, start_loc_list)`). -/
def chunk_results (img : ReadReq → List ℚ) (reduction : Nat)
    (chunks : List (List Coord)) : List (List Coord) :=
  chunks.map (fun ch => (process_patch img reduction ch).2)

/-- Shape of the mask grid: `np.zeros((h//patch_size, w//patch_size))` with
`w, h` the display-level (level-1) dimensions. -/
def mask_shape (w h : Nat) : Nat × Nat := (h / patch_size, w / patch_size)

/-- The mask-building loop: starting from an all-zero grid, for each patch
set `j = patch[0]//(patch_size*reduction)`, `i = patch[1]//(patch_size*reduction)`
and write `mask[i,j] = 1` when `i < h//patch_size` and `j < w//patch_size`
(skipping out-of-range projections).  The grid is modelled as the function
from indices `(i, j)` to cell values. -/
def mask (patches : List Coord) (w h reduction : Nat) : Nat → Nat → Nat :=
  patches.foldl
    (fun m patch =>
      let j := patch.1 / (patch_size * reduction)
      let i := patch.2 / (patch_size * reduction)
      if i < h / patch_size ∧ j < w / patch_size then
        fun a b => if a = i ∧ b = j then 1 else m a b
      else m)
    (fun _ _ => 0)

/-! ### Helper lemmas about `pyRange` -/

lemma pyRange_zero (s : Nat) : pyRange 0 s = [] := by
  unfold pyRange
  rcases Nat.eq_zero_or_pos s with h | h
  · subst h; rfl
  · rw [Nat.zero_add, Nat.div_eq_of_lt (Nat.sub_lt h Nat.one_pos)]
    rfl

lemma ceil_div_succ {n s : Nat} (hn : 0 < n) (hs : 0 < s) :
    (n + s - 1) / s = (n - s + s - 1) / s + 1 := by
  rcases Nat.le_total n s with h | h
  · have h1 : n - s = 0 := Nat.sub_eq_zero_of_le h
    rw [h1]
    have h2 : (0 + s - 1) / s = 0 := by
      rw [Nat.zero_add]; exact Nat.div_eq_of_lt (Nat.sub_lt hs Nat.one_pos)
    rw [h2]
    exact Nat.div_eq_of_lt_le (by omega) (by omega)
  · have h1 : n + s - 1 = (n - s + s - 1) + s := by omega
    rw [h1, Nat.add_div_right _ hs]

lemma pyRange_cons {n s : Nat} (hn : 0 < n) (hs : 0 < s) :
    pyRange n s = 0 :: (pyRange (n - s) s).map (fun x => x + s) := by
  unfold pyRange
  rw [ceil_div_succ hn hs, List.range_succ_eq_map, List.map_cons, Nat.zero_mul,
    List.map_map, List.map_map]
  congr 1
  apply List.map_congr_left
  intro a _
  simp [Nat.succ_mul]

lemma mem_pyRange {n s x : Nat} (hs : 0 < s) :
    x ∈ pyRange n s ↔ s ∣ x ∧ x < n := by
  unfold pyRange
  simp only [List.mem_map, List.mem_range]
  constructor
  · rintro ⟨t, ht, rfl⟩
    refine ⟨⟨t, Nat.mul_comm t s⟩, ?_⟩
    rcases Nat.eq_zero_or_pos n with hn | hn
    · subst hn
      simp only [Nat.zero_add] at ht
      exact absurd ht (by simp [Nat.div_eq_of_lt (Nat.sub_lt hs Nat.one_pos)])
    · have h1 : (n + s - 1) / s = (n - 1) / s + 1 := by
        have : n + s - 1 = (n - 1) + s := by omega
        rw [this, Nat.add_div_right _ hs]
      rw [h1] at ht
      have h2 : t ≤ (n - 1) / s := Nat.lt_succ_iff.mp ht
      have h3 : t * s ≤ n - 1 := by
        calc t * s ≤ ((n - 1) / s) * s := Nat.mul_le_mul_right s h2
        _ ≤ n - 1 := Nat.div_mul_le_self _ _
      omega
  · rintro ⟨⟨m, rfl⟩, hx⟩
    refine ⟨m, ?_, Nat.mul_comm m s⟩
    have hn : 0 < n := Nat.lt_of_le_of_lt (Nat.zero_le _) hx
    have h1 : (n + s - 1) / s = (n - 1) / s + 1 := by
      have : n + s - 1 = (n - 1) + s := by omega
      rw [this, Nat.add_div_right _ hs]
    rw [h1, Nat.lt_succ_iff, Nat.le_div_iff_mul_le hs]
    have hx2 : m * s < n := by rw [Nat.mul_comm]; exact hx
    omega

lemma pyRange_nodup {n s : Nat} (hs : 0 < s) : (pyRange n s).Nodup := by
  unfold pyRange
  exact List.Nodup.map (fun a b hab => Nat.eq_of_mul_eq_mul_right hs hab)
    (List.nodup_range _)

/-! ### The slicing loop flattens back to the original list -/

lemma slices_flatten_aux {α : Type} {cs : Nat} (hcs : 0 < cs) :
    ∀ (n : Nat) (l : List α), l.length = n →
      ((pyRange l.length cs).map (fun i => (l.drop i).take cs)).flatten = l := by
  intro n
  induction n using Nat.strong_induction_on with
  | _ n ih =>
    intro l hl
    rcases Nat.eq_zero_or_pos l.length with h0 | h0
    · rw [List.length_eq_zero.mp h0]
      simp [pyRange_zero]
    · rw [pyRange_cons h0 hcs, List.map_cons, List.flatten_cons, List.drop_zero,
        List.map_map]
      have hlen : (l.drop cs).length = l.length - cs := List.length_drop cs l
      have heq : (pyRange (l.length - cs) cs).map
            ((fun i => (l.drop i).take cs) ∘ (fun x => x + cs))
          = (pyRange ((l.drop cs).length) cs).map
            (fun i => (((l.drop cs)).drop i).take cs) := by
        rw [hlen]
        apply List.map_congr_left
        intro a _
        simp only [Function.comp]
        rw [List.drop_drop, Nat.add_comm a cs]
      rw [heq, ih ((l.drop cs).length) (by omega) (l.drop cs) rfl,
        List.take_append_drop]

lemma slices_flatten {α : Type} {cs : Nat} (hcs : 0 < cs) (l : List α) :
    ((pyRange l.length cs).map (fun i => (l.drop i).take cs)).flatten = l :=
  slices_flatten_aux hcs l.length l rfl

/-! ### Characterizations of the fold-based functions -/

lemma compile_results_aux (futures : List (List Coord)) (acc : List Coord) :
    futures.foldl
      (fun patches res1 => if res1 = [] then patches else patches ++ res1) acc
    = acc ++ futures.flatten := by
  induction futures generalizing acc with
  | nil => simp
  | cons a t ih =>
    rw [List.foldl_cons, List.flatten_cons, ih]
    rcases eq_or_ne a [] with h | h
    · subst h; simp
    · rw [if_neg h, List.append_assoc]

/-- The aggregator `compile_results` is exactly the concatenation of the per-worker result
lists, in the order they complete. -/
lemma compile_results_eq_flatten (futures : List (List Coord)) :
    compile_results futures = futures.flatten := by
  rw [compile_results, compile_results_aux, List.nil_append]

/-- The `read_region` request `process_patch` issues for a coordinate. -/
def mkReq (reduction : Nat) (c : Coord) : ReadReq :=
  ⟨c.1, c.2, patch_size / reduction, patch_size / reduction, 1⟩

lemma process_patch_aux (img : ReadReq → List ℚ) (reduction : Nat)
    (locs : List Coord) (acc : List ReadReq × List Coord) :
    locs.foldl
      (fun acc start_loc =>
        let req : ReadReq :=
          ⟨start_loc.1, start_loc.2, patch_size / reduction,
            patch_size / reduction, 1⟩
        let region := img req
        (acc.1 ++ [req],
         if threshold region threshold_default then acc.2 ++ [start_loc]
         else acc.2))
      acc
    = (acc.1 ++ locs.map (mkReq reduction),
       acc.2 ++ locs.filter
         (fun c => threshold (img (mkReq reduction c)) threshold_default)) := by
  induction locs generalizing acc with
  | nil => simp
  | cons a t ih =>
    rw [List.foldl_cons, ih, List.map_cons, List.filter_cons]
    simp only [mkReq]
    rcases h : threshold (img ⟨a.1, a.2, patch_size / reduction,
        patch_size / reduction, 1⟩) threshold_default with _ | _
    · simp [List.append_assoc]
    · simp [List.append_assoc]

lemma process_patch_fst (img : ReadReq → List ℚ) (reduction : Nat)
    (locs : List Coord) :
    (process_patch img reduction locs).1 = locs.map (mkReq reduction) := by
  rw [process_patch, process_patch_aux]
  simp

lemma process_patch_snd (img : ReadReq → List ℚ) (reduction : Nat)
    (locs : List Coord) :
    (process_patch img reduction locs).2
    = locs.filter
        (fun c => threshold (img (mkReq reduction c)) threshold_default) := by
  rw [process_patch, process_patch_aux]
  simp

/-! ### Chunking lemmas -/

lemma chunking_eq_some {α : Type} {data : List α} {num_chunks : Nat}
    {chunks : List (List α)} (h : chunking data num_chunks = some chunks) :
    0 < data.length / num_chunks ∧
      chunks = (pyRange data.length (data.length / num_chunks)).map
        (fun i => (data.drop i).take (data.length / num_chunks)) := by
  rw [chunking] at h
  by_cases hcs : data.length / num_chunks = 0
  · simp [hcs] at h
  · rw [if_neg hcs] at h
    exact ⟨Nat.pos_of_ne_zero hcs, (Option.some_injective _ h).symm⟩

lemma chunking_flatten {α : Type} {data : List α} {num_chunks : Nat}
    {chunks : List (List α)} (h : chunking data num_chunks = some chunks) :
    chunks.flatten = data := by
  obtain ⟨hcs, rfl⟩ := chunking_eq_some h
  exact slices_flatten hcs data

lemma chunking_length_le {α : Type} {data : List α} {num_chunks : Nat}
    {chunks : List (List α)} (h : chunking data num_chunks = some chunks) :
    ∀ c ∈ chunks, c.length ≤ data.length / num_chunks := by
  obtain ⟨hcs, rfl⟩ := chunking_eq_some h
  intro c hc
  obtain ⟨i, _, rfl⟩ := List.mem_map.mp hc
  rw [List.length_take]
  exact Nat.min_le_left _ _

lemma chunking_mem_nonempty {α : Type} {data : List α} {num_chunks : Nat}
    {chunks : List (List α)} (h : chunking data num_chunks = some chunks) :
    ∀ c ∈ chunks, c ≠ [] := by
  obtain ⟨hcs, rfl⟩ := chunking_eq_some h
  intro c hc
  obtain ⟨i, hi, rfl⟩ := List.mem_map.mp hc
  obtain ⟨-, hilt⟩ := (mem_pyRange hcs).mp hi
  rw [← List.length_pos, List.length_take, List.length_drop]
  omega

lemma chunking_count {α : Type} {data : List α} {num_chunks : Nat}
    {chunks : List (List α)} (h : chunking data num_chunks = some chunks) :
    chunks.length
      = (data.length + data.length / num_chunks - 1) / (data.length / num_chunks) := by
  obtain ⟨hcs, rfl⟩ := chunking_eq_some h
  simp [pyRange]

lemma chunking_getD {α : Type} {data : List α} {num_chunks : Nat}
    {chunks : List (List α)} (h : chunking data num_chunks = some chunks)
    {idx : Nat} (hidx : idx + 1 < chunks.length) :
    (chunks.getD idx []).length = data.length / num_chunks := by
  obtain ⟨hcs, rfl⟩ := chunking_eq_some h
  set cs := data.length / num_chunks with hcsdef
  set N := data.length with hNdef
  have hcount : ((pyRange N cs).map
      (fun i => (data.drop i).take cs)).length = (N + cs - 1) / cs := by
    simp [pyRange]
  rw [hcount] at hidx
  have hN : 0 < N := by
    by_contra hN0
    have : N = 0 := by omega
    rw [this] at hidx
    rw [Nat.zero_add, Nat.div_eq_of_lt (Nat.sub_lt hcs Nat.one_pos)] at hidx
    omega
  have hceil : (N + cs - 1) / cs = (N - 1) / cs + 1 := by
    have : N + cs - 1 = (N - 1) + cs := by omega
    rw [this, Nat.add_div_right _ hcs]
  have hidx2 : idx + 1 ≤ (N - 1) / cs := by omega
  have hmul : (idx + 1) * cs ≤ N - 1 :=
    Nat.le_trans (Nat.mul_le_mul_right cs hidx2) (Nat.div_mul_le_self _ _)
  have hlt : idx < (pyRange N cs).length := by
    rw [pyRange, List.length_map, List.length_range]
    omega
  have hget : ∀ (hh : idx < (pyRange N cs).length), (pyRange N cs)[idx] = idx * cs := by
    intro hh
    simp [pyRange]
  rw [List.getD_eq_getElem _ _ (by rw [List.length_map]; exact hlt),
    List.getElem_map, hget, List.length_take, List.length_drop]
  have : idx * cs + cs ≤ N := by
    have hplus : (idx + 1) * cs = idx * cs + cs := by ring
    omega
  omega

/-! ### Permutation and sublist helpers -/

lemma perm_flatten {α : Type} {l₁ l₂ : List (List α)} (h : l₁.Perm l₂) :
    l₁.flatten.Perm l₂.flatten := by
  induction h with
  | nil => exact List.Perm.refl _
  | cons x _ ih => simpa using ih.append_left x
  | swap x y l =>
    simp only [List.flatten_cons]
    rw [← List.append_assoc, ← List.append_assoc]
    exact (List.perm_append_comm).append_right _
  | trans _ _ ih1 ih2 => exact ih1.trans ih2

lemma flatten_filter_sublist {α : Type} (p : α → Bool) (l : List (List α)) :
    ((l.map (List.filter p)).flatten).Sublist l.flatten := by
  induction l with
  | nil => simp
  | cons a t ih =>
    rw [List.map_cons, List.flatten_cons, List.flatten_cons]
    exact List.Sublist.append (List.filter_sublist a) ih

/-! ### The coordinate grid has no duplicates -/

lemma start_loc_data_nodup (w h : Nat) : (start_loc_data w h).Nodup := by
  rw [start_loc_data, List.nodup_flatMap]
  constructor
  · intro sy _
    exact List.Nodup.map (fun a b hab => (Prod.mk.injEq _ _ _ _).mp hab |>.1)
      (pyRange_nodup (by norm_num [patch_size]))
  · refine List.Pairwise.imp ?_ (pyRange_nodup (n := h) (by norm_num [patch_size]))
    intro a b hab
    intro p hpa hpb
    obtain ⟨sxa, -, rfl⟩ := List.mem_map.mp hpa
    obtain ⟨sxb, -, hb⟩ := List.mem_map.mp hpb
    exact hab ((Prod.mk.injEq _ _ _ _).mp hb).2.symm

/-! ### Variance of a uniform tile -/

lemma var_uniform (l : List ℚ) (c : ℚ) (hne : l ≠ []) (h : ∀ x ∈ l, x = c) :
    var l = 0 := by
  have hl : l = List.replicate l.length c := List.eq_replicate_length.mpr h
  have hn : (l.length : ℚ) ≠ 0 :=
    Nat.cast_ne_zero.mpr (fun h0 => hne (List.length_eq_zero.mp h0))
  have hsum : l.sum = (l.length : ℚ) * c := by
    conv_lhs => rw [hl]
    rw [List.sum_replicate, nsmul_eq_mul]
  have hmean : mean l = c := by
    rw [mean, hsum, mul_comm, mul_div_assoc, div_self hn, mul_one]
  have hmap : l.map (fun x => (x - mean l) ^ 2) = List.replicate l.length 0 := by
    rw [hmean]
    conv_lhs => rw [hl]
    rw [List.map_replicate]
    simp
  rw [var, hmap, List.sum_replicate]
  simp

/-! ### Characterization of the mask-building loop -/

lemma mask_char_aux (w h reduction a b : Nat) :
    ∀ (ps : List Coord) (init : Nat → Nat → Nat),
      ps.foldl
        (fun m patch =>
          let j := patch.1 / (patch_size * reduction)
          let i := patch.2 / (patch_size * reduction)
          if i < h / patch_size ∧ j < w / patch_size then
            fun x y => if x = i ∧ y = j then 1 else m x y
          else m)
        init a b
      = if ∃ p ∈ ps,
            p.2 / (patch_size * reduction) < h / patch_size
            ∧ p.1 / (patch_size * reduction) < w / patch_size
            ∧ p.2 / (patch_size * reduction) = a
            ∧ p.1 / (patch_size * reduction) = b
        then 1 else init a b := by
  intro ps
  induction ps with
  | nil => intro init; simp
  | cons p t ih =>
    intro init
    rw [List.foldl_cons, ih]
    by_cases hex : ∃ q ∈ t,
        q.2 / (patch_size * reduction) < h / patch_size
        ∧ q.1 / (patch_size * reduction) < w / patch_size
        ∧ q.2 / (patch_size * reduction) = a
        ∧ q.1 / (patch_size * reduction) = b
    · rw [if_pos hex]
      have hex2 : ∃ q ∈ p :: t,
          q.2 / (patch_size * reduction) < h / patch_size
          ∧ q.1 / (patch_size * reduction) < w / patch_size
          ∧ q.2 / (patch_size * reduction) = a
          ∧ q.1 / (patch_size * reduction) = b := by
        obtain ⟨q, hq, hrest⟩ := hex
        exact ⟨q, List.mem_cons_of_mem p hq, hrest⟩
      rw [if_pos hex2]
    · rw [if_neg hex]
      by_cases hbound : p.2 / (patch_size * reduction) < h / patch_size
          ∧ p.1 / (patch_size * reduction) < w / patch_size
      · rw [if_pos hbound]
        by_cases hab : a = p.2 / (patch_size * reduction)
            ∧ b = p.1 / (patch_size * reduction)
        · rw [if_pos hab,
            if_pos (show ∃ q ∈ p :: t, _ from
              ⟨p, List.mem_cons_self p t, hbound.1, hbound.2,
                hab.1.symm, hab.2.symm⟩)]
        · rw [if_neg hab, if_neg]
          rintro ⟨q, hq, hq1, hq2, hq3, hq4⟩
          rcases List.mem_cons.mp hq with rfl | hqt
          · exact hab ⟨hq3.symm, hq4.symm⟩
          · exact hex ⟨q, hqt, hq1, hq2, hq3, hq4⟩
      · rw [if_neg hbound, if_neg]
        rintro ⟨q, hq, hq1, hq2, hq3, hq4⟩
        rcases List.mem_cons.mp hq with rfl | hqt
        · exact hbound ⟨hq1, hq2⟩
        · exact hex ⟨q, hqt, hq1, hq2, hq3, hq4⟩

/-- The built `mask` at cell `(a, b)` is `1` exactly when some accepted patch projects
into bounds at `(a, b)`, and `0` otherwise. -/
lemma mask_char (patches : List Coord) (w h reduction a b : Nat) :
    mask patches w h reduction a b
    = if ∃ p ∈ patches,
          p.2 / (patch_size * reduction) < h / patch_size
          ∧ p.1 / (patch_size * reduction) < w / patch_size
          ∧ p.2 / (patch_size * reduction) = a
          ∧ p.1 / (patch_size * reduction) = b
      then 1 else 0 := by
  rw [mask, mask_char_aux w h reduction a b patches (fun _ _ => 0)]

/-! ## Claim theorems -/

/-- C1: for every tile pixel buffer and every threshold value, the
foreground classifier returns `true` iff the variance of the flattened
pixel values strictly exceeds the threshold; a tile whose variance equals
the threshold, and a fully uniform tile (variance `0`), are classified
background, and the default threshold is `80`. -/
theorem classify_iff_variance_gt (arr : List ℚ) (t : ℚ) (hne : arr ≠ []) :
    (threshold arr t = true ↔ var arr > t)
    ∧ (var arr = t → threshold arr t = false)
    ∧ (∀ c : ℚ, (∀ x ∈ arr, x = c) →
        var arr = 0 ∧ threshold arr threshold_default = false)
    ∧ threshold_default = 80 := by
  refine ⟨?_, ?_, ?_, rfl⟩
  · by_cases hgt : var arr > t <;> simp [threshold, hgt]
  · intro heq
    simp [threshold, heq]
  · intro c hc
    have hv : var arr = 0 := var_uniform arr c hne hc
    refine ⟨hv, ?_⟩
    rw [threshold, hv, threshold_default]
    norm_num

theorem classify_iff_variance_gt_witness :
    (threshold [(1:ℚ), 1] 0 = true ↔ var [(1:ℚ), 1] > 0)
    ∧ (var [(1:ℚ), 1] = 0 → threshold [(1:ℚ), 1] 0 = false)
    ∧ (∀ c : ℚ, (∀ x ∈ [(1:ℚ), 1], x = c) →
        var [(1:ℚ), 1] = 0 ∧ threshold [(1:ℚ), 1] threshold_default = false)
    ∧ threshold_default = 80 :=
  classify_iff_variance_gt [(1:ℚ), 1] 0 (by simp)

/-- C2: the aggregated accepted-tile set is identical regardless of the
order in which the per-chunk results arrive (the merge is a commutative set
union), and a coordinate is aggregated iff some per-chunk result contains
it (no non-empty per-chunk result is dropped). -/
theorem aggregate_order_invariant (rs1 rs2 : List (List Coord))
    (hperm : rs1.Perm rs2) :
    (compile_results rs1).toFinset = (compile_results rs2).toFinset
    ∧ ∀ x : Coord, x ∈ compile_results rs1 ↔ ∃ r ∈ rs1, x ∈ r := by
  constructor
  · rw [compile_results_eq_flatten, compile_results_eq_flatten]
    exact List.toFinset_eq_of_perm _ _ (perm_flatten hperm)
  · intro x
    rw [compile_results_eq_flatten]
    exact List.mem_flatten

theorem aggregate_order_invariant_witness :
    (compile_results [[((0:Nat), (0:Nat))], [(1, 1)]]).toFinset
      = (compile_results [[((1:Nat), (1:Nat))], [(0, 0)]]).toFinset
    ∧ ∀ x : Coord,
        x ∈ compile_results [[((0:Nat), (0:Nat))], [(1, 1)]]
        ↔ ∃ r ∈ [[((0:Nat), (0:Nat))], [(1, 1)]], x ∈ r :=
  aggregate_order_invariant [[(0, 0)], [(1, 1)]] [[(1, 1)], [(0, 0)]] (by decide)

/-- C3 (counterexample): the scheduler does not split a list of length `10`
into exactly `num_chunks = 3` sub-lists — it produces `4` chunks, and the
last chunk is smaller than the others, not larger. -/
theorem chunk_split_count_cex :
    chunking (List.range 10) 3 = some [[0, 1, 2], [3, 4, 5], [6, 7, 8], [9]]
    ∧ ([[0, 1, 2], [3, 4, 5], [6, 7, 8], [9]] : List (List Nat)).length ≠ 3
    ∧ ([9] : List Nat).length < ([0, 1, 2] : List Nat).length := by
  decide

/-- C3 (amended): for `1 ≤ num_chunks ≤ N` the scheduler deterministically
splits the tile list into `⌈N / ⌊N/num_chunks⌋⌉` contiguous sub-lists whose
concatenation is the original list; every chunk has size
`⌊N/num_chunks⌋`, except possibly the last, which may be smaller. -/
theorem chunk_split_amended (l : List Coord) (k : Nat)
    (h1 : 1 ≤ k) (h2 : k ≤ l.length) :
    ∃ chunks, chunking l k = some chunks
      ∧ chunks.flatten = l
      ∧ (∀ c ∈ chunks, c.length ≤ l.length / k)
      ∧ (∀ idx : Nat, idx + 1 < chunks.length →
          (chunks.getD idx []).length = l.length / k)
      ∧ chunks.length
          = (l.length + l.length / k - 1) / (l.length / k) := by
  have hcs : 0 < l.length / k := (Nat.one_le_div_iff (by omega)).mpr h2
  obtain ⟨chunks, hsome⟩ : ∃ chunks, chunking l k = some chunks := by
    rw [chunking]
    exact ⟨_, by rw [if_neg (by omega)]⟩
  exact ⟨chunks, hsome, chunking_flatten hsome, chunking_length_le hsome,
    fun idx hidx => chunking_getD hsome hidx, chunking_count hsome⟩

theorem chunk_split_amended_witness :
    ∃ chunks,
      chunking [((0:Nat), (0:Nat)), (164, 0), (0, 164)] 2 = some chunks
      ∧ chunks.flatten = [((0:Nat), (0:Nat)), (164, 0), (0, 164)]
      ∧ (∀ c ∈ chunks,
          c.length ≤ [((0:Nat), (0:Nat)), (164, 0), (0, 164)].length / 2)
      ∧ (∀ idx : Nat, idx + 1 < chunks.length →
          (chunks.getD idx []).length
            = [((0:Nat), (0:Nat)), (164, 0), (0, 164)].length / 2)
      ∧ chunks.length
          = ([((0:Nat), (0:Nat)), (164, 0), (0, 164)].length
              + [((0:Nat), (0:Nat)), (164, 0), (0, 164)].length / 2 - 1)
            / ([((0:Nat), (0:Nat)), (164, 0), (0, 164)].length / 2) :=
  chunk_split_amended [(0, 0), (164, 0), (0, 164)] 2 (by decide) (by decide)

/-- C4: the scheduler generates tile coordinates `(x, y)` exactly at every
`x` in `range(0, W, patch_size)` and `y` in `range(0, H, patch_size)` of the
level-0 dimensions (membership in `pyRange n patch_size` is exactly
"multiple of the stride, below the bound"); for `W = H = 1000` and
`patch_size = 164` the start positions on each axis are exactly
`{0, 164, 328, 492, 656, 820, 984}`, seven per axis. -/
theorem grid_generation :
    (∀ w h x y : Nat, (x, y) ∈ start_loc_data w h
        ↔ x ∈ pyRange w patch_size ∧ y ∈ pyRange h patch_size)
    ∧ (∀ n x : Nat, x ∈ pyRange n patch_size ↔ patch_size ∣ x ∧ x < n)
    ∧ pyRange 1000 patch_size = [0, 164, 328, 492, 656, 820, 984]
    ∧ (pyRange 1000 patch_size).length = 7 := by
  refine ⟨?_, fun n x => mem_pyRange (by norm_num [patch_size]),
    by decide, by decide⟩
  intro w h x y
  rw [start_loc_data]
  simp only [List.mem_flatMap, List.mem_map, Prod.mk.injEq]
  constructor
  · rintro ⟨sy, hsy, sx, hsx, rfl, rfl⟩
    exact ⟨hsx, hsy⟩
  · rintro ⟨hx, hy⟩
    exact ⟨y, hy, x, hx, rfl, rfl⟩

/-- C5: the mask builder maps each accepted coordinate `(x, y)` to grid cell
`(i, j) = (y / (patch_size * reduction), x / (patch_size * reduction))` and
sets it to `1`, silently skipping coordinates whose projected cell falls
outside the grid bounds; cells never written stay `0`, so an empty
accepted-tile set yields an all-zero grid, of shape
`(h / patch_size, w / patch_size)` for display-level dimensions `(w, h)`. -/
theorem mask_build_correct :
    (∀ (patches : List Coord) (w h reduction a b : Nat),
      mask patches w h reduction a b
      = if ∃ p ∈ patches,
            p.2 / (patch_size * reduction) < h / patch_size
            ∧ p.1 / (patch_size * reduction) < w / patch_size
            ∧ p.2 / (patch_size * reduction) = a
            ∧ p.1 / (patch_size * reduction) = b
        then 1 else 0)
    ∧ (∀ w h reduction a b : Nat, mask [] w h reduction a b = 0)
    ∧ (∀ w h : Nat, mask_shape w h = (h / patch_size, w / patch_size)) := by
  refine ⟨mask_char, ?_, fun w h => rfl⟩
  intro w h reduction a b
  rw [mask_char]
  simp

/-- C6: each worker issues, for every coordinate of its sub-list, exactly
one region read — at level `1`, with the location unchanged in level-0
coordinates and the requested size `patch_size / reduction` on each axis
(floor division) — and appends to its result list exactly those coordinates
whose tile classifies as foreground under the default threshold. -/
theorem worker_reads_and_filters (img : ReadReq → List ℚ) (reduction : Nat)
    (locs : List Coord) :
    (process_patch img reduction locs).1
      = locs.map (fun c =>
          ⟨c.1, c.2, patch_size / reduction, patch_size / reduction, 1⟩)
    ∧ (process_patch img reduction locs).2
      = locs.filter (fun c =>
          threshold
            (img ⟨c.1, c.2, patch_size / reduction, patch_size / reduction, 1⟩)
            threshold_default) :=
  ⟨process_patch_fst img reduction locs, process_patch_snd img reduction locs⟩

/-- C7: two runs of the full scan on the same image with the same
parameters — each receiving its per-chunk worker results in an arbitrary
completion order — produce identical accepted-tile sets: the scan result,
as a set of coordinates, is a deterministic function of the image and the
parameters. -/
theorem scan_deterministic (img : ReadReq → List ℚ)
    (reduction w h k : Nat) (chunks arr1 arr2 : List (List Coord))
    (_hc : chunking (start_loc_data w h) k = some chunks)
    (h1 : arr1.Perm (chunk_results img reduction chunks))
    (h2 : arr2.Perm (chunk_results img reduction chunks)) :
    (compile_results arr1).toFinset = (compile_results arr2).toFinset := by
  rw [compile_results_eq_flatten, compile_results_eq_flatten]
  exact List.toFinset_eq_of_perm _ _ (perm_flatten (h1.trans h2.symm))

/-- A trivial one-pixel image used to instantiate the scan theorems. -/
def constImg : ReadReq → List ℚ := fun _ => [1]

theorem scan_deterministic_witness :
    (compile_results
        (chunk_results constImg 4 [[(0, 0), (164, 0)], [(0, 164), (164, 164)]])).toFinset
    = (compile_results
        (chunk_results constImg 4
          [[(0, 0), (164, 0)], [(0, 164), (164, 164)]]).reverse).toFinset :=
  scan_deterministic constImg 4 328 328 2
    [[(0, 0), (164, 0)], [(0, 164), (164, 164)]] _ _
    (by decide) (List.Perm.refl _) (List.reverse_perm _)

/-- C8: chunking a tile list of length `N = 49` (a 7×7 grid) with
`num_chunks = 32` produces chunks whose sizes differ by at most `1`
(indeed all have size `1`), and concatenating the chunks in chunk order
reconstructs the original ordered tile list exactly. -/
theorem chunk_49_by_32 (l : List Coord) (h : l.length = 49) :
    ∃ chunks, chunking l 32 = some chunks
      ∧ chunks.flatten = l
      ∧ (∀ c1 ∈ chunks, ∀ c2 ∈ chunks, c1.length ≤ c2.length + 1) := by
  have hcs : l.length / 32 = 1 := by rw [h]
  obtain ⟨chunks, hsome⟩ : ∃ chunks, chunking l 32 = some chunks := by
    rw [chunking]
    exact ⟨_, by rw [if_neg (by omega)]⟩
  refine ⟨chunks, hsome, chunking_flatten hsome, ?_⟩
  have hall : ∀ c ∈ chunks, c.length = 1 := by
    intro c hc
    have hle := chunking_length_le hsome c hc
    have hpos := List.length_pos.mpr (chunking_mem_nonempty hsome c hc)
    rw [hcs] at hle
    omega
  intro c1 h1 c2 h2
  rw [hall c1 h1, hall c2 h2]
  omega

/-- A concrete 49-coordinate tile list (7×7 grid stride `patch_size`). -/
def sample49 : List Coord :=
  (List.range 49).map (fun n => ((n % 7) * patch_size, (n / 7) * patch_size))

theorem chunk_49_by_32_witness :
    ∃ chunks, chunking sample49 32 = some chunks
      ∧ chunks.flatten = sample49
      ∧ (∀ c1 ∈ chunks, ∀ c2 ∈ chunks, c1.length ≤ c2.length + 1) :=
  chunk_49_by_32 sample49 (by simp [sample49])

/-- C9: the accepted-tile set contains no duplicate coordinates: the chunks
partition the generated grid, each worker result is a sublist of its chunk,
and so the aggregated result — in whatever completion order it was
collected — lists each coordinate at most once. -/
theorem accepted_tiles_nodup (img : ReadReq → List ℚ)
    (reduction w h k : Nat) (chunks arr : List (List Coord))
    (hc : chunking (start_loc_data w h) k = some chunks)
    (ha : arr.Perm (chunk_results img reduction chunks)) :
    (compile_results arr).Nodup := by
  rw [compile_results_eq_flatten]
  have h1 : chunk_results img reduction chunks
      = chunks.map (List.filter
          (fun c => threshold (img (mkReq reduction c)) threshold_default)) := by
    rw [chunk_results]
    apply List.map_congr_left
    intro ch _
    rw [process_patch_snd]
  have hflat : chunks.flatten = start_loc_data w h := chunking_flatten hc
  have hnd : (chunk_results img reduction chunks).flatten.Nodup := by
    rw [h1]
    exact List.Nodup.sublist (flatten_filter_sublist _ chunks)
      (hflat ▸ start_loc_data_nodup w h)
  exact ((perm_flatten ha).nodup_iff).mpr hnd

theorem accepted_tiles_nodup_witness :
    (compile_results
      (chunk_results constImg 4 [[(0, 0), (164, 0)], [(0, 164), (164, 164)]])).Nodup :=
  accepted_tiles_nodup constImg 4 328 328 2
    [[(0, 0), (164, 0)], [(0, 164), (164, 164)]] _
    (by decide) (List.Perm.refl _)

/-- C10: the chunking step is total exactly when `num_chunks` is at most
the number of tile coordinates: for `1 ≤ num_chunks ≤ N` it produces a
non-empty list of non-empty chunks, while whenever `num_chunks > N` the
integer chunk size `N / num_chunks` is `0` and the step fails (Python's
`range` raises `ValueError` on a zero step, modelled as `none`) instead of
returning any chunk list. -/
theorem chunking_totality :
    (∀ (l : List Coord) (k : Nat), 1 ≤ k → k ≤ l.length →
        ∃ chunks, chunking l k = some chunks
          ∧ chunks ≠ [] ∧ ∀ c ∈ chunks, c ≠ [])
    ∧ (∀ (l : List Coord) (k : Nat), l.length < k →
        l.length / k = 0 ∧ chunking l k = none) := by
  constructor
  · intro l k h1 h2
    have hcs : 0 < l.length / k := (Nat.one_le_div_iff (by omega)).mpr h2
    obtain ⟨chunks, hsome⟩ : ∃ chunks, chunking l k = some chunks := by
      rw [chunking]
      exact ⟨_, by rw [if_neg (by omega)]⟩
    refine ⟨chunks, hsome, ?_, chunking_mem_nonempty hsome⟩
    intro hnil
    have hfl := chunking_flatten hsome
    rw [hnil] at hfl
    have : l.length = 0 := by rw [← hfl]; rfl
    omega
  · intro l k hlt
    have hz : l.length / k = 0 := Nat.div_eq_of_lt hlt
    refine ⟨hz, ?_⟩
    rw [chunking, if_pos hz]

theorem chunking_totality_witness :
    (∃ chunks, chunking [((0:Nat), (0:Nat)), (164, 0)] 2 = some chunks
      ∧ chunks ≠ [] ∧ ∀ c ∈ chunks, c ≠ [])
    ∧ ([((0:Nat), (0:Nat)), (164, 0)].length / 3 = 0
      ∧ chunking [((0:Nat), (0:Nat)), (164, 0)] 3 = none) :=
  ⟨chunking_totality.1 [(0, 0), (164, 0)] 2 (by decide) (by decide),
    chunking_totality.2 [(0, 0), (164, 0)] 3 (by decide)⟩

end BioImaging
